import Mathlib

/-!
Verification development for the rebinning core of the MSIM repository
(`src/msim/src/modules/rebin.py`).

The Python module is embedded shallowly over `ℚ` (exact rational
arithmetic in place of IEEE floats; all identities proved here are the
exact-arithmetic content of the corresponding floating-point claims):

* Python `int()` on a float is truncation toward zero (`pyint`).
* numpy/Python array indexing with an integer index is `pyget`/`cget`/
  `pget` (negative indices wrap from the end, as in Python; reads outside
  `[-len, len)` would raise `IndexError` in Python and return the junk
  value `0` here — every claim below that touches an index also
  establishes that the index is in bounds).
* `np.interp` is `npinterp` (documented numpy semantics: edge clamping to
  the first/last sample value, linear interpolation inside a segment).
* 1D arrays are `List ℚ`; the 3D cube and 2D image are dimension-tagged
  total functions (`Cube3`, `Plane`), matching numpy's dense arrays.
* The failure surface of `rebin1d` (the indexing and `np.interp` calls
  that run before the output array is built) is modelled by `rebin1dE`,
  which mirrors, in program order, each Python expression that can raise
  for degenerate grids.  `tqdm` progress bars and the unused local `box`
  have no computational content and are omitted, as is `np.transpose`
  applied to a 1-D array (the identity).
-/

namespace MSIM

/-- Python `int()` applied to a rational: truncation toward zero. -/
def pyint (q : ℚ) : ℤ := if q < 0 then ⌈q⌉ else ⌊q⌋

/-- Python/numpy 1D array indexing: nonnegative indices are positional,
negative indices wrap from the end; reads outside `[-len, len)` give the
junk value `0` (Python raises `IndexError` there; the safety claims below
prove such reads never happen in the modelled calls). -/
def pyget (l : List ℚ) (i : ℤ) : ℚ :=
  if 0 ≤ i then l.getD i.toNat 0 else l.getD (l.length - (-i).toNat) 0

/-- Core of numpy `np.interp`, on a list of `(sample point, sample value)`
pairs sorted by sample point: queries at or below the first point clamp to
the first value, queries above the last point clamp to the last value, and
queries inside a segment are linearly interpolated. -/
def npinterpP (x : ℚ) : List (ℚ × ℚ) → ℚ
  | [] => 0
  | [p] => p.2
  | p :: q :: l =>
    if x ≤ p.1 then p.2
    else if x ≤ q.1 then p.2 + (q.2 - p.2) * (x - p.1) / (q.1 - p.1)
    else npinterpP x (q :: l)

/-- numpy `np.interp x xp fp` (the library call used throughout
`rebin.py`), with `xp` and `fp` consumed pairwise. -/
def npinterp (x : ℚ) (xp fp : List ℚ) : ℚ := npinterpP x (xp.zip fp)

/-- Python `range(n)` as rationals: the `fp` argument of the
`np.interp(..., xin, range(len(xin)))` coordinate-to-index maps. -/
def idxList (n : ℕ) : List ℚ := (List.range n).map (fun j : ℕ => (j : ℚ))

/-- `dx_out = xout[1] - xout[0]` in `rebin1d`/`rebin_cube_1d`. -/
def dxOut (xout : List ℚ) : ℚ := xout.getD 1 0 - xout.getD 0 0

/-- `in0 = int(np.interp(xout[0], xin, range(len(xin))))`. -/
def in0 (xout xin : List ℚ) : ℤ :=
  pyint (npinterp (xout.getD 0 0) xin (idxList xin.length))

/-- `dx_in = xin[in0+1] - xin[in0]`. -/
def dxIn (xout xin : List ℚ) : ℚ :=
  pyget xin (in0 xout xin + 1) - pyget xin (in0 xout xin)

/-- `in_i = np.interp(xout - dx_out*0.5, xin, range(len(xin)))`, read at
position `i`. -/
def in_i (xout xin : List ℚ) (i : ℕ) : ℚ :=
  npinterp (xout.getD i 0 - dxOut xout * (1 / 2)) xin (idxList xin.length)

/-- `rstart = in_i[i]` for output bin `i` of the box-integration loop. -/
def rstart (xout xin : List ℚ) (i : ℕ) : ℚ := in_i xout xin i

/-- `rstop` for output bin `i`: `in_i[i+1]`, except for the last bin,
whose stop is extrapolated by the previous bin's index-width
(`in_i[i] + (in_i[i] - in_i[i-1])`).  The `i = 0` instance of the second
branch can only arise for `len(xout) = 1`, which never reaches the loop
(`rebin1dE` fails first on `xout[1]`). -/
def rstop (xout xin : List ℚ) (i : ℕ) : ℚ :=
  if i < xout.length - 1 then in_i xout xin (i + 1)
  else in_i xout xin i + (in_i xout xin i - in_i xout xin (i - 1))

/-- `istart = int(rstart)`. -/
def istart (xout xin : List ℚ) (i : ℕ) : ℤ := pyint (rstart xout xin i)

/-- `istop = int(rstop)`, clamped above to the last valid input index
(`if istop > len(xin) - 1: istop = len(xin) - 1`). -/
def istop (xout xin : List ℚ) (i : ℕ) : ℤ :=
  if (xin.length : ℤ) - 1 < pyint (rstop xout xin i) then (xin.length : ℤ) - 1
  else pyint (rstop xout xin i)

/-- `frac1 = rstart - istart`. -/
def frac1 (xout xin : List ℚ) (i : ℕ) : ℚ :=
  rstart xout xin i - (istart xout xin i : ℚ)

/-- `frac2 = 1.0 - (rstop - istop)`. -/
def frac2 (xout xin : List ℚ) (i : ℕ) : ℚ :=
  1 - (rstop xout xin i - (istop xout xin i : ℚ))

/-- `np.sum(l[a : b+1])` for `0 ≤ a` (out-of-range positions contribute
the `pyget` junk `0`, matching the Python slice's upper clamping). -/
def sliceSum (l : List ℚ) (a b : ℤ) : ℚ :=
  ∑ t in Finset.range (b + 1 - a).toNat, pyget l (a + t)

/-- Body of the box-integration loop of `rebin1d`: the value written to
`temp[i]`. -/
def boxVal (xout xin yin : List ℚ) (i : ℕ) : ℚ :=
  if istart xout xin i = istop xout xin i then
    (1 - frac1 xout xin i - frac2 xout xin i) * pyget yin (istart xout xin i)
      / (rstop xout xin i - rstart xout xin i)
  else
    (sliceSum yin (istart xout xin i) (istop xout xin i)
      - frac1 xout xin i * pyget yin (istart xout xin i)
      - frac2 xout xin i * pyget yin (istop xout xin i))
      / (rstop xout xin i - rstart xout xin i)

/-- `rebin1d(xout, xin, yin)` from `rebin.py`: interpolation regime when
the output spacing is strictly finer than the input spacing near
`xout[0]`, box-integration regime otherwise. -/
def rebin1d (xout xin yin : List ℚ) : List ℚ :=
  if dxOut xout < dxIn xout xin then xout.map (fun x => npinterp x xin yin)
  else (List.range xout.length).map (boxVal xout xin yin)

/-- Failure modes of the Python code on degenerate grids.  `indexError`
and `valueError` are the exceptions the code actually raises
(out-of-range indexing, `np.interp` on an empty sample array).
`invalidGrid` is the dedicated error named by the specification; it
exists in the type so that statements about the spec's error taxonomy can
be expressed — the code never produces it. -/
inductive RebinErr
  | indexError
  | valueError
  | invalidGrid
  deriving DecidableEq

/-- `rebin1d` with its failure surface made explicit, mirroring the
Python evaluation order: `xout[0]` (IndexError on an empty output grid),
`np.interp(..., xin, ...)` (ValueError on an empty input grid),
`xin[in0+1]` (IndexError when the bracketing index is the last input
index), `xout[1]` (IndexError when the output grid has a single point).
After these, the loop's own accesses are in bounds for sorted grids (see
the safety claim), so the result is `rebin1d`. -/
def rebin1dE (xout xin yin : List ℚ) : Except RebinErr (List ℚ) :=
  if xout.length = 0 then .error .indexError
  else if xin.length = 0 then .error .valueError
  else if (xin.length : ℤ) - 1 < in0 xout xin + 1 then .error .indexError
  else if xout.length < 2 then .error .indexError
  else .ok (rebin1d xout xin yin)

/-- A 3D numpy array addressed as `(spectral, row, col)`. -/
structure Cube3 where
  s : ℕ
  r : ℕ
  c : ℕ
  data : ℕ → ℕ → ℕ → ℚ

/-- Indexing `cube[i, j, k]` along the (possibly negative) spectral
index, with Python wrapping. -/
def cget (K : Cube3) (i : ℤ) (j k : ℕ) : ℚ :=
  if 0 ≤ i then K.data i.toNat j k else K.data (K.s - (-i).toNat) j k

/-- `np.sum(cube[a : b+1, :, :], axis=0)`, read at spatial `(j, k)`. -/
def cubeSliceSum (K : Cube3) (a b : ℤ) (j k : ℕ) : ℚ :=
  ∑ t in Finset.range (b + 1 - a).toNat, cget K (a + t) j k

/-- The spectral vector `cube[:, j, k]` as a list. -/
def spectrumAt (K : Cube3) (j k : ℕ) : List ℚ :=
  (List.range K.s).map (fun t => K.data t j k)

/-- `rebin_cube_1d(xout, xin, cube)` from `rebin.py`: same regime
selection as `rebin1d`; per-pixel `np.interp` in the interpolation
regime, whole-slab box arithmetic (with no separate `istart == istop`
branch) in the box regime. -/
def rebin_cube_1d (xout xin : List ℚ) (K : Cube3) : Cube3 :=
  ⟨xout.length, K.r, K.c, fun i j k =>
    if dxOut xout < dxIn xout xin then
      npinterp (xout.getD i 0) xin (spectrumAt K j k)
    else
      (cubeSliceSum K (istart xout xin i) (istop xout xin i) j k
        - frac1 xout xin i * cget K (istart xout xin i) j k
        - frac2 xout xin i * cget K (istop xout xin i) j k)
        / (rstop xout xin i - rstart xout xin i)⟩

/-- A 2D numpy array with `r` rows and `c` columns (numpy shape
`(r, c)`). -/
structure Plane where
  r : ℕ
  c : ℕ
  data : ℕ → ℕ → ℚ

/-- Row indexing `array[i, j]` with a (possibly negative) row index,
with Python wrapping. -/
def pget (B : Plane) (i : ℤ) (j : ℕ) : ℚ :=
  if 0 ≤ i then B.data i.toNat j else B.data (B.r - (-i).toNat) j

/-- `np.sum(array[a : b+1, :], axis=0)`, read at column `j`. -/
def planeSliceSum (B : Plane) (a b : ℤ) (j : ℕ) : ℚ :=
  ∑ t in Finset.range (b + 1 - a).toNat, pget B (a + t) j

/-- One binning pass of `frebin2d` along the leading axis: `m` output
rows of box width `box`, `istop` clamped to the input's last row.  The
row and column passes of the Python code are this one loop body applied
to `array` and to the transposed intermediate. -/
def passBin (B : Plane) (m : ℕ) (box : ℚ) : Plane :=
  ⟨m, B.c, fun i j =>
    let rs : ℚ := (i : ℚ) * box
    let is' : ℤ := pyint rs
    let rp : ℚ := rs + box
    let ip : ℤ := if (B.r : ℤ) - 1 < pyint rp then (B.r : ℤ) - 1 else pyint rp
    let f1 : ℚ := rs - (is' : ℚ)
    let f2 : ℚ := 1 - (rp - (ip : ℚ))
    if is' = ip then (1 - f1 - f2) * pget B is' j
    else planeSliceSum B is' ip j - f1 * pget B is' j - f2 * pget B ip j⟩

/-- `np.transpose` of a 2D array. -/
def transposeP (B : Plane) : Plane := ⟨B.c, B.r, fun i j => B.data j i⟩

/-- `frebin2d(array, shape)` from `rebin.py`: `shape = (x-size, y-size)`;
bin in y, transpose, bin in x, transpose back and normalize by the cell
area `xbox * ybox`. -/
def frebin2d (A : Plane) (shape : ℕ × ℕ) : Plane :=
  let xbox : ℚ := (A.c : ℚ) / (shape.1 : ℚ)
  let ybox : ℚ := (A.r : ℚ) / (shape.2 : ℚ)
  let temp : Plane := transposeP (passBin A shape.2 ybox)
  let result : Plane := passBin temp shape.1 xbox
  ⟨result.c, result.r, fun i j => result.data j i / (xbox * ybox)⟩

/-- Extensional equality of 2D arrays: equal dimensions and equal entries
everywhere in range. -/
def planeEqOn (B B' : Plane) : Prop :=
  B.r = B'.r ∧ B.c = B'.c ∧ ∀ i < B.r, ∀ j < B.c, B.data i j = B'.data i j

/-- The per-input-pixel weight applied by the box-integration formula to
input pixel `j` of output bin `i`: `1 - frac1` at `istart`, `1 - frac2`
at `istop`, and `1` for interior pixels. -/
def boxWeight (xout xin : List ℚ) (i : ℕ) (j : ℤ) : ℚ :=
  if j = istart xout xin i then 1 - frac1 xout xin i
  else if j = istop xout xin i then 1 - frac2 xout xin i
  else 1

/-- A concrete non-square 1×2 image (numpy shape `(1, 2)`), used to probe
`frebin2d` on its own shape. -/
def planeA : Plane :=
  ⟨1, 2, fun i j => if i = 0 ∧ j = 0 then 1 else if i = 0 ∧ j = 1 then 2 else 0⟩

/-- A concrete 5×1×1 cube whose single spectrum is `[1, 2, 3, 4, 5]`
(the spec's scenario-1 values, identical across all spatial pixels). -/
def cubeEx : Cube3 := ⟨5, 1, 1, fun t _ _ => (t : ℚ) + 1⟩

end MSIM

namespace MSIM

/-! ### Generic helper lemmas -/

theorem pyint_of_nonneg {q : ℚ} (h : 0 ≤ q) : pyint q = ⌊q⌋ := by
  simp [pyint, not_lt.2 h]

theorem sum_range_toNat_eq_sum_Icc (a b : ℤ) (f : ℤ → ℚ) :
    ∑ t in Finset.range (b + 1 - a).toNat, f (a + t) = ∑ j in Finset.Icc a b, f j := by
  rw [Int.Icc_eq_finset_map, Finset.sum_map]
  simp

theorem sliceSum_eq_sum_Icc (l : List ℚ) (a b : ℤ) :
    sliceSum l a b = ∑ j in Finset.Icc a b, pyget l j :=
  sum_range_toNat_eq_sum_Icc a b (fun j => pyget l j)

/-! ### Claims -/

/-- Claim C7: for every input, `rebin1d` returns as many values as the
output grid has points, and `rebin_cube_1d` returns a cube of shape
`(len(outputGrid), cube.rows, cube.cols)`, in both regimes. -/
theorem rebin1d_length_and_cube_shape (xout xin yin : List ℚ) (K : Cube3) :
    (rebin1d xout xin yin).length = xout.length ∧
    (rebin_cube_1d xout xin K).s = xout.length ∧
    (rebin_cube_1d xout xin K).r = K.r ∧
    (rebin_cube_1d xout xin K).c = K.c := by
  refine ⟨?_, rfl, rfl, rfl⟩
  unfold rebin1d
  split <;> simp

/-- Claim C3: `frebin2d(array, (outCols, outRows))` returns an image with
`outCols` columns and `outRows` rows (numpy shape `(outRows, outCols)`),
for every requested positive output shape. -/
theorem frebin2d_shape (A : Plane) (outCols outRows : ℕ)
    (hc : 0 < outCols) (hr : 0 < outRows) :
    (frebin2d A (outCols, outRows)).c = outCols ∧
    (frebin2d A (outCols, outRows)).r = outRows :=
  ⟨rfl, rfl⟩

/-- Claim C3 witness: the shape contract at a concrete 1×1 input resized
to 2 columns × 3 rows. -/
theorem frebin2d_shape_witness :
    (frebin2d ⟨1, 1, fun _ _ => 1⟩ (2, 3)).c = 2 ∧
    (frebin2d ⟨1, 1, fun _ _ => 1⟩ (2, 3)).r = 3 :=
  frebin2d_shape ⟨1, 1, fun _ _ => 1⟩ 2 3 (by norm_num) (by norm_num)

/-- Claim C2 counterexample: rebinning the series `[0, 10, 20, 30]` on
the grid `[0, 1, 2, 3]` onto that same grid does not return the original
values — the code goes through the box-integration regime and returns
`[0, 5, 15, 25]`. -/
theorem rebin_own_grid_not_identity :
    rebin1d [0, 1, 2, 3] [0, 1, 2, 3] [0, 10, 20, 30] ≠ [0, 10, 20, 30] := by
  have h : rebin1d [0, 1, 2, 3] [0, 1, 2, 3] [0, 10, 20, 30] = [0, 5, 15, 25] := by
    norm_num [rebin1d, boxVal, istart, istop, rstart, rstop, in_i, in0, dxIn, dxOut, npinterp,
      npinterpP, idxList, pyint, pyget, frac1, frac2, sliceSum, List.range_succ]
    norm_num [show ((2:ℤ).toNat = 2) from by simp, show ((3:ℤ).toNat = 3) from by simp,
      Finset.sum_range_succ, Finset.sum_range_zero]
  rw [h]
  norm_num

/-- Claim C2 amended: rebinning a series onto its own (uniform) input
grid always selects the box-integration regime and returns the
half-pixel-smoothed series, not the original one: the first value is
kept, and every later output value is the mean of two consecutive input
values.  On the grid `[0, 1, 2, 3]` the result is
`[y0, (y0+y1)/2, (y1+y2)/2, (y2+y3)/2]`, so the original values survive
only where consecutive values coincide (e.g. a constant series). -/
theorem rebin_own_grid_halfpixel (a b c d : ℚ) :
    rebin1d [0, 1, 2, 3] [0, 1, 2, 3] [a, b, c, d] =
      [a, (a + b) / 2, (b + c) / 2, (c + d) / 2] := by
  norm_num [rebin1d, boxVal, istart, istop, rstart, rstop, in_i, in0, dxIn, dxOut, npinterp,
    npinterpP, idxList, pyint, pyget, frac1, frac2, sliceSum, List.range_succ]
  norm_num [show ((2:ℤ).toNat = 2) from by simp, show ((3:ℤ).toNat = 3) from by simp,
    Finset.sum_range_succ, Finset.sum_range_zero]
  ring_nf
  norm_num [List.getD]

/-- Claim C4 counterexample: on a length-1 output grid the call fails,
but with a plain `IndexError` raised by the spacing computation
(`xout[1]`), not with the spec's dedicated `InvalidGrid` error, and not
through any eager validation of the grids. -/
theorem rebin1d_short_grid_error_kind :
    rebin1dE [0] [0, 1] [1, 2] = Except.error RebinErr.indexError ∧
    RebinErr.indexError ≠ RebinErr.invalidGrid := by
  constructor
  · norm_num [rebin1dE, in0, npinterp, npinterpP, idxList, pyint, List.range_succ]
  · decide

/-- Claim C4 amended: if either grid has length < 2, `rebin1d` fails —
with the generic exception (`IndexError`/`ValueError`) arising from the
initial spacing computation rather than a dedicated eager `InvalidGrid`
check — and the failure happens before the output array is built, so no
partial result is produced. -/
theorem rebin1d_short_grid_fails (xout xin yin : List ℚ)
    (h : xout.length < 2 ∨ xin.length < 2) :
    ∃ e, rebin1dE xout xin yin = Except.error e := by
  unfold rebin1dE
  split_ifs with h0 h1 h2 h3
  · exact ⟨_, rfl⟩
  · exact ⟨_, rfl⟩
  · exact ⟨_, rfl⟩
  · exact ⟨_, rfl⟩
  · exfalso
    rcases h with hout | hin
    · exact h3 hout
    · have hx1 : xin.length = 1 := by omega
      obtain ⟨x, hx⟩ := List.length_eq_one.mp hx1
      subst hx
      apply h2
      have h0' : in0 xout [x] = 0 := by
        simp [in0, npinterp, npinterpP, idxList, pyint, List.range_succ]
      rw [h0']
      norm_num

/-- Claim C4 witness: the amended failure theorem applied to the concrete
length-1 output grid `[0]`. -/
theorem rebin1d_short_grid_fails_witness :
    ∃ e, rebin1dE [0] [0, 1] [1, 2] = Except.error e :=
  rebin1d_short_grid_fails [0] [0, 1] [1, 2] (Or.inl (by norm_num))

/-- Claim C5 counterexample: for the strictly increasing length-2 grids
`xout = [100, 101]` and `xin = [0, 1]` the call does not select any
regime — the spacing lookup `xin[in0+1]` indexes past the end of the
input grid (the first output point lies at or beyond the last input
point) and the call fails with an `IndexError`. -/
theorem rebin1d_regime_lookup_crash :
    rebin1dE [100, 101] [0, 1] [5, 6] = Except.error RebinErr.indexError := by
  norm_num [rebin1dE, in0, npinterp, npinterpP, idxList, pyint, List.range_succ]

/-- Claim C8 counterexample: resizing the non-square 1×2 image `planeA`
to its own numpy shape `(1, 2)` is not a no-op — `frebin2d` reads its
shape argument as `(x-size, y-size)`, so the result is a 2×1 image, not
the original. -/
theorem frebin2d_own_shape_not_identity :
    ¬ planeEqOn (frebin2d planeA (1, 2)) planeA := by
  intro h
  have hr : (frebin2d planeA (1, 2)).r = 2 := rfl
  have := h.1
  rw [hr] at this
  simp [planeA] at this

end MSIM


namespace MSIM

theorem mem_idxList {y : ℚ} {n : ℕ} (h : y ∈ idxList n) :
    0 ≤ y ∧ y ≤ (n : ℚ) - 1 := by
  unfold idxList at h
  rcases List.mem_map.mp h with ⟨j, hj, hjp⟩
  rw [List.mem_range] at hj
  refine ⟨?_, ?_⟩
  · rw [← hjp]; exact Nat.cast_nonneg j
  · rw [← hjp]
    have h1 : (j : ℚ) + 1 ≤ (n : ℚ) := by exact_mod_cast Nat.succ_le_of_lt hj
    linarith

theorem npinterpP_nonneg (x : ℚ) :
    ∀ l : List (ℚ × ℚ), (∀ p ∈ l, 0 ≤ p.2) → 0 ≤ npinterpP x l
  | [], _ => le_refl 0
  | [p], h => by simpa [npinterpP] using h p (by simp)
  | p :: q :: l, h => by
    rw [npinterpP]
    split_ifs with h1 h2
    · exact h p (by simp)
    · have hp : 0 ≤ p.2 := h p (by simp)
      have hq : 0 ≤ q.2 := h q (by simp)
      have hx0 : p.1 < x := lt_of_not_le h1
      have hden : 0 < q.1 - p.1 := by linarith
      have ht0 : 0 ≤ (x - p.1) / (q.1 - p.1) := div_nonneg (by linarith) (le_of_lt hden)
      have ht1 : (x - p.1) / (q.1 - p.1) ≤ 1 := by
        rw [div_le_one hden]; linarith
      rw [mul_div_assoc]
      nlinarith [mul_nonneg hp (by linarith : (0:ℚ) ≤ 1 - (x - p.1) / (q.1 - p.1)),
        mul_nonneg hq ht0]
    · exact npinterpP_nonneg x (q :: l) (fun r hr => h r (List.mem_cons_of_mem p hr))

theorem rstart_nonneg (xout xin : List ℚ) (i : ℕ) : 0 ≤ rstart xout xin i := by
  unfold rstart in_i npinterp
  apply npinterpP_nonneg
  intro p hp
  exact (mem_idxList (List.of_mem_zip hp).2).1

theorem one_le_of_one_le_pyint {q : ℚ} (h : 1 ≤ pyint q) : 1 ≤ q := by
  unfold pyint at h
  split_ifs at h with hq
  · exfalso
    have hc : ⌈q⌉ ≤ 0 := Int.ceil_le.mpr (by push_cast; linarith)
    omega
  · exact_mod_cast Int.le_floor.mp h

theorem sum_weights_Icc (a b : ℤ) (hab : a < b) (f1 f2 : ℚ) :
    ∑ j in Finset.Icc a b, (if j = a then 1 - f1 else if j = b then 1 - f2 else 1)
      = ((b : ℚ) - (a : ℚ) + 1) - f1 - f2 := by
  have hne : a ≠ b := ne_of_lt hab
  have key : ∀ j ∈ Finset.Icc a b,
      (if j = a then 1 - f1 else if j = b then 1 - f2 else 1)
        = 1 - ((if j = a then f1 else 0) + (if j = b then f2 else 0)) := by
    intro j _
    by_cases hja : j = a
    · subst hja; simp [hne]
    · by_cases hjb : j = b
      · subst hjb; simp [hja]
      · simp [hja, hjb]
  have hcard : ((Finset.Icc a b).card : ℚ) = (b : ℚ) - a + 1 := by
    rw [Int.card_Icc]
    have h' : ((b + 1 - a).toNat : ℤ) = b + 1 - a := Int.toNat_of_nonneg (by omega)
    have h'' : (((b + 1 - a).toNat : ℕ) : ℚ) = (b : ℚ) + 1 - a := by
      exact_mod_cast congrArg (fun z : ℤ => (z : ℚ)) h'
    rw [h'']; ring
  rw [Finset.sum_congr rfl key, Finset.sum_sub_distrib, Finset.sum_add_distrib,
    Finset.sum_ite_eq' (Finset.Icc a b) a fun _ => f1,
    Finset.sum_ite_eq' (Finset.Icc a b) b fun _ => f2,
    if_pos (Finset.mem_Icc.mpr ⟨le_refl a, le_of_lt hab⟩),
    if_pos (Finset.mem_Icc.mpr ⟨le_of_lt hab, le_refl b⟩),
    Finset.sum_const, nsmul_eq_mul, mul_one, hcard]
  ring

theorem sum_weighted_values_Icc (a b : ℤ) (hab : a < b) (f1 f2 : ℚ) (y : ℤ → ℚ) :
    ∑ j in Finset.Icc a b, (if j = a then 1 - f1 else if j = b then 1 - f2 else 1) * y j
      = (∑ j in Finset.Icc a b, y j) - f1 * y a - f2 * y b := by
  have hne : a ≠ b := ne_of_lt hab
  have key : ∀ j ∈ Finset.Icc a b,
      (if j = a then 1 - f1 else if j = b then 1 - f2 else 1) * y j
        = y j - ((if j = a then f1 * y a else 0) + (if j = b then f2 * y b else 0)) := by
    intro j _
    by_cases hja : j = a
    · subst hja; simp [hne]; ring
    · by_cases hjb : j = b
      · subst hjb; simp [hja]; ring
      · simp [hja, hjb]
  rw [Finset.sum_congr rfl key, Finset.sum_sub_distrib, Finset.sum_add_distrib,
    Finset.sum_ite_eq' (Finset.Icc a b) a fun _ => f1 * y a,
    Finset.sum_ite_eq' (Finset.Icc a b) b fun _ => f2 * y b,
    if_pos (Finset.mem_Icc.mpr ⟨le_refl a, le_of_lt hab⟩),
    if_pos (Finset.mem_Icc.mpr ⟨le_of_lt hab, le_refl b⟩)]
  ring

/-- Claim C1: in the box-integration regime, for every output bin whose
stop index is not clamped and with `istart < istop`, the per-input-pixel
weights (`1 - frac1` at `istart`, `1 - frac2` at `istop`, `1` inside) sum
exactly to the bin width `rstop - rstart` in input-index units, and
`output[i] * (rstop - rstart)` is exactly the weighted sum of the input
values under those weights (flux conservation of the partition). -/
theorem box_weights_partition (xout xin yin : List ℚ) (i : ℕ)
    (h1 : istart xout xin i < istop xout xin i)
    (h2 : pyint (rstop xout xin i) ≤ (xin.length : ℤ) - 1) :
    (∑ j in Finset.Icc (istart xout xin i) (istop xout xin i), boxWeight xout xin i j)
        = rstop xout xin i - rstart xout xin i ∧
    boxVal xout xin yin i * (rstop xout xin i - rstart xout xin i)
        = ∑ j in Finset.Icc (istart xout xin i) (istop xout xin i),
            boxWeight xout xin i j * pyget yin j := by
  have hbw : ∀ j, boxWeight xout xin i j
      = if j = istart xout xin i then 1 - frac1 xout xin i
        else if j = istop xout xin i then 1 - frac2 xout xin i else 1 := fun j => rfl
  have hnc : istop xout xin i = pyint (rstop xout xin i) := by
    unfold istop; rw [if_neg (not_lt.2 h2)]
  have h0rs : 0 ≤ rstart xout xin i := rstart_nonneg xout xin i
  have hfl : istart xout xin i = ⌊rstart xout xin i⌋ := pyint_of_nonneg h0rs
  have hax : (istart xout xin i : ℚ) ≤ rstart xout xin i := by rw [hfl]; exact Int.floor_le _
  have ha0 : 0 ≤ istart xout xin i := by rw [hfl]; exact Int.floor_nonneg.mpr h0rs
  have hb1 : 1 ≤ pyint (rstop xout xin i) := by omega
  have hrp1 : 1 ≤ rstop xout xin i := one_le_of_one_le_pyint hb1
  have hbfl : istop xout xin i = ⌊rstop xout xin i⌋ := by
    rw [hnc, pyint_of_nonneg (by linarith)]
  have hbx : (istop xout xin i : ℚ) ≤ rstop xout xin i := by rw [hbfl]; exact Int.floor_le _
  have haf : rstart xout xin i < (istart xout xin i : ℚ) + 1 := by
    rw [hfl]; exact Int.lt_floor_add_one _
  have hcast : (istart xout xin i : ℚ) + 1 ≤ (istop xout xin i : ℚ) := by exact_mod_cast h1
  have hlt : rstart xout xin i < rstop xout xin i := by linarith
  have hne0 : rstop xout xin i - rstart xout xin i ≠ 0 := ne_of_gt (by linarith)
  constructor
  · simp only [hbw]
    rw [sum_weights_Icc _ _ h1]
    unfold frac1 frac2
    ring
  · rw [boxVal, if_neg (ne_of_lt h1), div_mul_cancel₀ _ hne0, sliceSum_eq_sum_Icc]
    simp only [hbw]
    rw [sum_weighted_values_Icc _ _ h1]

end MSIM

namespace MSIM

/-- Claim C1 witness: the weight partition at the concrete down-sampling
call of the spec's scenario 1 (`xout = [0,2,4]`, `xin = [0,1,2,3,4]`),
output bin 0. -/
theorem box_weights_partition_witness :
    (istart [0, 2, 4] [0, 1, 2, 3, 4] 0 < istop [0, 2, 4] [0, 1, 2, 3, 4] 0) ∧
    (∑ j in Finset.Icc (istart [0, 2, 4] [0, 1, 2, 3, 4] 0) (istop [0, 2, 4] [0, 1, 2, 3, 4] 0),
        boxWeight [0, 2, 4] [0, 1, 2, 3, 4] 0 j)
      = rstop [0, 2, 4] [0, 1, 2, 3, 4] 0 - rstart [0, 2, 4] [0, 1, 2, 3, 4] 0 := by
  have h1 : istart [0, 2, 4] [0, 1, 2, 3, 4] 0 < istop [0, 2, 4] [0, 1, 2, 3, 4] 0 := by
    norm_num [istart, istop, rstart, rstop, in_i, dxOut, npinterp, npinterpP, idxList, pyint,
      List.range_succ]
  have h2 : pyint (rstop [0, 2, 4] [0, 1, 2, 3, 4] 0)
      ≤ (([0, 1, 2, 3, 4] : List ℚ).length : ℤ) - 1 := by
    norm_num [rstop, in_i, dxOut, npinterp, npinterpP, idxList, pyint, List.range_succ]
  exact ⟨h1, (box_weights_partition [0, 2, 4] [0, 1, 2, 3, 4] [1, 2, 3, 4, 5] 0 h1 h2).1⟩

end MSIM

namespace MSIM

theorem chain'_le_of_mem (f : ℚ × ℚ → ℚ) :
    ∀ (p : ℚ × ℚ) (l : List (ℚ × ℚ)),
      List.Chain' (fun a b => f a ≤ f b) (p :: l) →
      ∀ q ∈ p :: l, f p ≤ f q
  | p, [], _, q, hq => by
    simp only [List.mem_singleton] at hq
    exact hq ▸ le_refl _
  | p, r :: t, h, q, hq => by
    have h1 := (List.chain'_cons.mp h).1
    have h2 := (List.chain'_cons.mp h).2
    rcases List.mem_cons.mp hq with rfl | hq'
    · exact le_refl _
    · exact le_trans h1 (chain'_le_of_mem f r t h2 q hq')

theorem chain'_lt_getLast (f : ℚ × ℚ → ℚ) :
    ∀ (p q : ℚ × ℚ) (l : List (ℚ × ℚ)),
      List.Chain' (fun a b => f a < f b) (p :: q :: l) →
      f p < f ((p :: q :: l).getLast (by simp))
  | p, q, [], h => by
    simpa using (List.chain'_cons.mp h).1
  | p, q, r :: t, h => by
    have h1 := (List.chain'_cons.mp h).1
    have h2 := (List.chain'_cons.mp h).2
    have := chain'_lt_getLast f q r t h2
    rw [List.getLast_cons]
    exact lt_trans h1 this

theorem le_npinterpP (x lo : ℚ) :
    ∀ l : List (ℚ × ℚ), (∀ p ∈ l, lo ≤ p.2) → l ≠ [] → lo ≤ npinterpP x l
  | [], _, hne => absurd rfl hne
  | [p], h, _ => by simpa [npinterpP] using h p (by simp)
  | p :: q :: l, h, _ => by
    rw [npinterpP]
    split_ifs with h1 h2
    · exact h p (by simp)
    · have hp : lo ≤ p.2 := h p (by simp)
      have hq : lo ≤ q.2 := h q (by simp)
      have hx0 : p.1 < x := lt_of_not_le h1
      have hden : 0 < q.1 - p.1 := by linarith
      have ht0 : 0 ≤ (x - p.1) / (q.1 - p.1) := div_nonneg (by linarith) (le_of_lt hden)
      have ht1 : (x - p.1) / (q.1 - p.1) ≤ 1 := by
        rw [div_le_one hden]; linarith
      rw [mul_div_assoc]
      nlinarith [mul_nonneg (by linarith : (0:ℚ) ≤ p.2 - lo)
          (by linarith : (0:ℚ) ≤ 1 - (x - p.1) / (q.1 - p.1)),
        mul_nonneg (by linarith : (0:ℚ) ≤ q.2 - lo) ht0]
    · exact le_npinterpP x lo (q :: l) (fun r hr => h r (List.mem_cons_of_mem p hr)) (by simp)

theorem npinterpP_le (x hi : ℚ) :
    ∀ l : List (ℚ × ℚ), (∀ p ∈ l, p.2 ≤ hi) → l ≠ [] → npinterpP x l ≤ hi
  | [], _, hne => absurd rfl hne
  | [p], h, _ => by simpa [npinterpP] using h p (by simp)
  | p :: q :: l, h, _ => by
    rw [npinterpP]
    split_ifs with h1 h2
    · exact h p (by simp)
    · have hp : p.2 ≤ hi := h p (by simp)
      have hq : q.2 ≤ hi := h q (by simp)
      have hx0 : p.1 < x := lt_of_not_le h1
      have hden : 0 < q.1 - p.1 := by linarith
      have ht0 : 0 ≤ (x - p.1) / (q.1 - p.1) := div_nonneg (by linarith) (le_of_lt hden)
      have ht1 : (x - p.1) / (q.1 - p.1) ≤ 1 := by
        rw [div_le_one hden]; linarith
      rw [mul_div_assoc]
      nlinarith [mul_nonneg (by linarith : (0:ℚ) ≤ hi - p.2)
          (by linarith : (0:ℚ) ≤ 1 - (x - p.1) / (q.1 - p.1)),
        mul_nonneg (by linarith : (0:ℚ) ≤ hi - q.2) ht0]
    · exact npinterpP_le x hi (q :: l) (fun r hr => h r (List.mem_cons_of_mem p hr)) (by simp)

theorem npinterpP_mono {x y : ℚ} (hxy : x ≤ y) :
    ∀ l : List (ℚ × ℚ),
      List.Chain' (fun a b : ℚ × ℚ => a.1 ≤ b.1 ∧ a.2 ≤ b.2) l →
      npinterpP x l ≤ npinterpP y l
  | [], _ => le_refl _
  | [p], _ => le_refl _
  | p :: q :: l, hc => by
    have hpq := (List.chain'_cons.mp hc).1
    have htl := (List.chain'_cons.mp hc).2
    by_cases hx1 : x ≤ p.1
    · rw [show npinterpP x (p :: q :: l) = p.2 from by rw [npinterpP, if_pos hx1]]
      exact le_npinterpP y p.2 (p :: q :: l)
        (chain'_le_of_mem (fun r => r.2) p (q :: l) (hc.imp (fun a b h => h.2))) (by simp)
    · by_cases hx2 : x ≤ q.1
      · have hx0 : p.1 < x := lt_of_not_le hx1
        have hden : 0 < q.1 - p.1 := by linarith
        by_cases hy2 : y ≤ q.1
        · have hy1 : ¬ y ≤ p.1 := by push_neg; linarith
          rw [show npinterpP x (p :: q :: l)
                = p.2 + (q.2 - p.2) * (x - p.1) / (q.1 - p.1) from by
              rw [npinterpP, if_neg hx1, if_pos hx2],
            show npinterpP y (p :: q :: l)
                = p.2 + (q.2 - p.2) * (y - p.1) / (q.1 - p.1) from by
              rw [npinterpP, if_neg hy1, if_pos hy2]]
          rw [mul_div_assoc, mul_div_assoc]
          have hs : 0 ≤ q.2 - p.2 := by linarith [hpq.2]
          have hdiv : (x - p.1) / (q.1 - p.1) ≤ (y - p.1) / (q.1 - p.1) := by
            apply div_le_div_of_le_of_nonneg ?_ (le_of_lt hden)
            linarith
          nlinarith [mul_le_mul_of_nonneg_left hdiv hs]
        · have hy1 : ¬ y ≤ p.1 := by push_neg; linarith
          rw [show npinterpP x (p :: q :: l)
                = p.2 + (q.2 - p.2) * (x - p.1) / (q.1 - p.1) from by
              rw [npinterpP, if_neg hx1, if_pos hx2],
            show npinterpP y (p :: q :: l) = npinterpP y (q :: l) from by
              rw [npinterpP, if_neg hy1, if_neg hy2]]
          have hle : p.2 + (q.2 - p.2) * (x - p.1) / (q.1 - p.1) ≤ q.2 := by
            have ht1 : (x - p.1) / (q.1 - p.1) ≤ 1 := by
              rw [div_le_one hden]; linarith
            have ht0 : 0 ≤ (x - p.1) / (q.1 - p.1) := div_nonneg (by linarith) (le_of_lt hden)
            rw [mul_div_assoc]
            nlinarith [mul_nonneg (by linarith [hpq.2] : (0:ℚ) ≤ q.2 - p.2)
              (by linarith : (0:ℚ) ≤ 1 - (x - p.1) / (q.1 - p.1))]
          exact le_trans hle
            (le_npinterpP y q.2 (q :: l)
              (chain'_le_of_mem (fun r => r.2) q l (htl.imp (fun a b h => h.2))) (by simp))
      · have hy1 : ¬ y ≤ p.1 := by push_neg; linarith [lt_of_not_le hx2, hpq.1]
        have hy2 : ¬ y ≤ q.1 := by push_neg; linarith [lt_of_not_le hx2]
        rw [show npinterpP x (p :: q :: l) = npinterpP x (q :: l) from by
            rw [npinterpP, if_neg hx1, if_neg hx2],
          show npinterpP y (p :: q :: l) = npinterpP y (q :: l) from by
            rw [npinterpP, if_neg hy1, if_neg hy2]]
        exact npinterpP_mono hxy (q :: l) htl

end MSIM

namespace MSIM

theorem chain'_zip {R S : ℚ → ℚ → Prop} :
    ∀ (l m : List ℚ), List.Chain' R l → List.Chain' S m →
      List.Chain' (fun a b : ℚ × ℚ => R a.1 b.1 ∧ S a.2 b.2) (l.zip m)
  | [], _, _, _ => by simp
  | _ :: _, [], _, _ => by simp
  | [a], b :: m, _, _ => by simp
  | a :: a' :: l, [b], _, _ => by simp
  | a :: a' :: l, b :: b' :: m, hl, hm => by
    rw [List.zip_cons_cons, List.zip_cons_cons, List.chain'_cons]
    refine ⟨⟨(List.chain'_cons.mp hl).1, (List.chain'_cons.mp hm).1⟩, ?_⟩
    rw [← List.zip_cons_cons]
    exact chain'_zip (a' :: l) (b' :: m) (List.chain'_cons.mp hl).2 (List.chain'_cons.mp hm).2

theorem idxList_chain_lt (n : ℕ) : List.Chain' (fun a b : ℚ => a < b) (idxList n) := by
  unfold idxList
  rw [List.chain'_map]
  exact ((List.pairwise_lt_range n).chain').imp (fun a b h => by exact_mod_cast h)

theorem zipIdx_ne_nil {xin : List ℚ} (h : 1 ≤ xin.length) :
    xin.zip (idxList xin.length) ≠ [] := by
  have hlen : (xin.zip (idxList xin.length)).length = xin.length := by
    simp [List.length_zip, idxList]
  intro hnil
  rw [hnil] at hlen
  simp at hlen
  omega

theorem snd_mem_zipIdx_bounds {xin : List ℚ} {p : ℚ × ℚ}
    (hp : p ∈ xin.zip (idxList xin.length)) :
    0 ≤ p.2 ∧ p.2 ≤ (xin.length : ℚ) - 1 :=
  mem_idxList (List.of_mem_zip hp).2

theorem in_i_bounds (xout xin : List ℚ) (h1i : 1 ≤ xin.length) (i : ℕ) :
    0 ≤ in_i xout xin i ∧ in_i xout xin i ≤ (xin.length : ℚ) - 1 := by
  unfold in_i npinterp
  constructor
  · exact npinterpP_nonneg _ _ (fun p hp => (snd_mem_zipIdx_bounds hp).1)
  · exact npinterpP_le _ _ _ (fun p hp => (snd_mem_zipIdx_bounds hp).2) (zipIdx_ne_nil h1i)

theorem chain'_getD_le {l : List ℚ} (hl : List.Chain' (fun a b : ℚ => a < b) l) {i j : ℕ}
    (hij : i ≤ j) (hj : j < l.length) : l.getD i 0 ≤ l.getD j 0 := by
  rcases eq_or_lt_of_le hij with rfl | hlt
  · exact le_refl _
  · have hp := List.chain'_iff_pairwise.mp hl
    have hij' := List.pairwise_iff_get.mp hp ⟨i, lt_trans hlt hj⟩ ⟨j, hj⟩ hlt
    rw [List.getD_eq_get l 0 (lt_trans hlt hj), List.getD_eq_get l 0 hj]
    exact le_of_lt hij'

theorem in_i_mono (xout xin : List ℚ) (hxin : List.Chain' (fun a b : ℚ => a < b) xin)
    (hxout : List.Chain' (fun a b : ℚ => a < b) xout) {i j : ℕ}
    (hij : i ≤ j) (hj : j < xout.length) :
    in_i xout xin i ≤ in_i xout xin j := by
  unfold in_i npinterp
  apply npinterpP_mono
  · have := chain'_getD_le hxout hij hj
    linarith
  · exact chain'_zip xin (idxList xin.length)
      (hxin.imp (fun a b h => le_of_lt h))
      ((idxList_chain_lt xin.length).imp (fun a b h => le_of_lt h))

theorem pyint_mono {q r : ℚ} (h : q ≤ r) : pyint q ≤ pyint r := by
  unfold pyint
  split_ifs with hq hr hr
  · exact Int.ceil_mono h
  · have h1 : ⌈q⌉ ≤ 0 := Int.ceil_le.mpr (by push_cast; linarith)
    have h2 : (0:ℤ) ≤ ⌊r⌋ := Int.floor_nonneg.mpr (by linarith [not_lt.mp hr])
    omega
  · exact absurd (lt_of_le_of_lt h hr) hq
  · exact Int.floor_mono h

end MSIM

namespace MSIM

theorem floor_len_sub_one (n : ℕ) : ⌊(n : ℚ) - 1⌋ = (n : ℤ) - 1 := by
  rw [show (n : ℚ) - 1 = (((n : ℤ) - 1 : ℤ) : ℚ) by push_cast; ring, Int.floor_intCast]

theorem box_index_facts (xout xin : List ℚ)
    (hxin : List.Chain' (fun a b : ℚ => a < b) xin)
    (hxout : List.Chain' (fun a b : ℚ => a < b) xout)
    (h2i : 2 ≤ xin.length) (i : ℕ) (hi : i < xout.length) :
    0 ≤ istart xout xin i ∧ istart xout xin i ≤ (xin.length : ℤ) - 1 ∧
    0 ≤ istop xout xin i ∧ istop xout xin i ≤ (xin.length : ℤ) - 1 ∧
    istart xout xin i ≤ istop xout xin i ∧
    rstart xout xin i ≤ rstop xout xin i := by
  have h1i : 1 ≤ xin.length := by omega
  have hr := in_i_bounds xout xin h1i i
  have hr0 : 0 ≤ rstart xout xin i := hr.1
  have hr1 : rstart xout xin i ≤ (xin.length : ℚ) - 1 := hr.2
  have hrs : rstart xout xin i ≤ rstop xout xin i := by
    unfold rstop
    split_ifs with hlast
    · exact in_i_mono xout xin hxin hxout (Nat.le_succ i) (by omega)
    · have := in_i_mono xout xin hxin hxout (Nat.sub_le i 1) hi
      unfold rstart
      linarith
  have hA : istart xout xin i = ⌊rstart xout xin i⌋ := pyint_of_nonneg hr0
  have ha0 : 0 ≤ istart xout xin i := by
    rw [hA]; exact Int.floor_nonneg.mpr hr0
  have ha1 : istart xout xin i ≤ (xin.length : ℤ) - 1 := by
    rw [hA, ← floor_len_sub_one]
    exact Int.floor_mono hr1
  have hpm : istart xout xin i ≤ pyint (rstop xout xin i) := pyint_mono hrs
  have hb : 0 ≤ istop xout xin i ∧ istop xout xin i ≤ (xin.length : ℤ) - 1 ∧
      istart xout xin i ≤ istop xout xin i := by
    unfold istop
    split_ifs with hcl
    · exact ⟨by omega, le_refl _, ha1⟩
    · exact ⟨le_trans ha0 hpm, by omega, hpm⟩
  exact ⟨ha0, ha1, hb.1, hb.2.1, hb.2.2, hrs⟩

/-- Claim C10: in the box-integration regime, with strictly increasing
grids of length ≥ 2, every array access of the loop is in bounds: the
fractional indices `in_i` are clamped by `np.interp` to
`[0, len(xin)-1]`, `istart` is a valid input index, `istop` is a valid
input index (clamped above to the last one), the slice
`istart..istop+1` is well formed (`istart ≤ istop`), and the last-bin
extrapolation reads `in_i[i-1]` only at `i ≥ 1`. -/
theorem box_indices_safe (xout xin : List ℚ)
    (hxin : List.Chain' (fun a b : ℚ => a < b) xin)
    (hxout : List.Chain' (fun a b : ℚ => a < b) xout)
    (h2i : 2 ≤ xin.length) (h2o : 2 ≤ xout.length)
    (i : ℕ) (hi : i < xout.length) :
    (0 ≤ in_i xout xin i ∧ in_i xout xin i ≤ (xin.length : ℚ) - 1) ∧
    (0 ≤ istart xout xin i ∧ istart xout xin i ≤ (xin.length : ℤ) - 1) ∧
    (0 ≤ istop xout xin i ∧ istop xout xin i ≤ (xin.length : ℤ) - 1) ∧
    istart xout xin i ≤ istop xout xin i ∧
    (¬ i < xout.length - 1 → 1 ≤ i) := by
  have hf := box_index_facts xout xin hxin hxout h2i i hi
  refine ⟨in_i_bounds xout xin (by omega) i, ⟨hf.1, hf.2.1⟩, ⟨hf.2.2.1, hf.2.2.2.1⟩,
    hf.2.2.2.2.1, ?_⟩
  intro hlast
  omega

/-- Claim C10 witness: the in-bounds facts at the concrete box-regime
call of the spec's scenario 1, output bin 1. -/
theorem box_indices_safe_witness :
    (0 ≤ in_i [0, 2, 4] [0, 1, 2, 3, 4] 1 ∧
      in_i [0, 2, 4] [0, 1, 2, 3, 4] 1 ≤ (([0, 1, 2, 3, 4] : List ℚ).length : ℚ) - 1) ∧
    (0 ≤ istart [0, 2, 4] [0, 1, 2, 3, 4] 1 ∧
      istart [0, 2, 4] [0, 1, 2, 3, 4] 1 ≤ (([0, 1, 2, 3, 4] : List ℚ).length : ℤ) - 1) ∧
    (0 ≤ istop [0, 2, 4] [0, 1, 2, 3, 4] 1 ∧
      istop [0, 2, 4] [0, 1, 2, 3, 4] 1 ≤ (([0, 1, 2, 3, 4] : List ℚ).length : ℤ) - 1) ∧
    istart [0, 2, 4] [0, 1, 2, 3, 4] 1 ≤ istop [0, 2, 4] [0, 1, 2, 3, 4] 1 ∧
    (¬ 1 < ([0, 2, 4] : List ℚ).length - 1 → 1 ≤ 1) :=
  box_indices_safe [0, 2, 4] [0, 1, 2, 3, 4]
    (by norm_num [List.chain'_cons, List.chain'_singleton])
    (by norm_num [List.chain'_cons, List.chain'_singleton])
    (by norm_num) (by norm_num) 1 (by norm_num)

end MSIM

namespace MSIM

theorem pyget_spectrumAt (K : Cube3) (j k : ℕ) {m : ℤ} (h0 : 0 ≤ m) (h1 : m < (K.s : ℤ)) :
    pyget (spectrumAt K j k) m = cget K m j k := by
  unfold pyget cget spectrumAt
  rw [if_pos h0, if_pos h0]
  have hmlt : m.toNat < K.s := by omega
  rw [List.getD_eq_getElem _ _ (by simpa using hmlt)]
  simp

/-- Claim C6: `rebin_cube_1d` is `rebin1d` applied independently to the
spectral vector at each spatial position: at every `(row, col)` and every
output index the cube result equals the corresponding `rebin1d` output on
that pixel's spectrum (the cube code's missing `istart == istop` special
case is algebraically equal to the general slab formula on a singleton
slice).  In particular, for a cube whose spectra are identical across all
spatial pixels, every spatial pixel of the output equals the `rebin1d`
result of that common spectrum. -/
theorem rebin_cube_pointwise (xout xin : List ℚ) (K : Cube3)
    (hxin : List.Chain' (fun a b : ℚ => a < b) xin)
    (hxout : List.Chain' (fun a b : ℚ => a < b) xout)
    (h2i : 2 ≤ xin.length) (hs : K.s = xin.length)
    (i j k : ℕ) (hi : i < xout.length) :
    (rebin_cube_1d xout xin K).data i j k
      = (rebin1d xout xin (spectrumAt K j k)).getD i 0 := by
  obtain ⟨ha0, ha1, hb0, hb1, hab, -⟩ := box_index_facts xout xin hxin hxout h2i i hi
  dsimp only [rebin_cube_1d, rebin1d]
  split_ifs with hd
  · rw [List.getD_eq_getElem (xout.map _) 0 (by simpa using hi), List.getElem_map,
      ← List.getD_eq_getElem xout 0 hi]
  · rw [List.getD_eq_getElem _ 0 (by simpa using hi), List.getElem_map, List.getElem_range]
    have hget : ∀ m : ℤ, 0 ≤ m → m ≤ (xin.length : ℤ) - 1 →
        pyget (spectrumAt K j k) m = cget K m j k := by
      intro m hm0 hm1
      exact pyget_spectrumAt K j k hm0 (by omega)
    have hslice : sliceSum (spectrumAt K j k) (istart xout xin i) (istop xout xin i)
        = cubeSliceSum K (istart xout xin i) (istop xout xin i) j k := by
      unfold sliceSum cubeSliceSum
      apply Finset.sum_congr rfl
      intro t ht
      rw [Finset.mem_range] at ht
      apply hget
      · omega
      · have htt : (t : ℤ) < istop xout xin i + 1 - istart xout xin i := by omega
        omega
    by_cases he : istart xout xin i = istop xout xin i
    · rw [boxVal, if_pos he]
      have hsingle : cubeSliceSum K (istart xout xin i) (istop xout xin i) j k
          = cget K (istart xout xin i) j k := by
        unfold cubeSliceSum
        rw [← he, show (istart xout xin i + 1 - istart xout xin i).toNat = 1 by omega,
          Finset.sum_range_one]
        simp
      rw [hsingle, ← he, hget _ ha0 ha1]
      ring
    · rw [boxVal, if_neg he, hslice, hget _ ha0 ha1, hget _ hb0 hb1]

/-- Claim C6 witness: the pointwise equality at the concrete scenario-4
style cube `cubeEx` (spectrum `[1..5]`), scenario-1 grids, output plane 0. -/
theorem rebin_cube_pointwise_witness :
    (rebin_cube_1d [0, 2, 4] [0, 1, 2, 3, 4] cubeEx).data 0 0 0
      = (rebin1d [0, 2, 4] [0, 1, 2, 3, 4] (spectrumAt cubeEx 0 0)).getD 0 0 :=
  rebin_cube_pointwise [0, 2, 4] [0, 1, 2, 3, 4] cubeEx
    (by norm_num [List.chain'_cons, List.chain'_singleton])
    (by norm_num [List.chain'_cons, List.chain'_singleton])
    (by norm_num) (by norm_num [cubeEx]) 0 0 0 (by norm_num)

end MSIM

namespace MSIM

theorem npinterpP_head_of_le (x : ℚ) (p : ℚ × ℚ) (l : List (ℚ × ℚ)) (hx : x ≤ p.1) :
    npinterpP x (p :: l) = p.2 := by
  cases l with
  | nil => rw [npinterpP]
  | cons q t => rw [npinterpP, if_pos hx]

theorem chain'_true : ∀ l : List ℚ, List.Chain' (fun _ _ => True) l
  | [] => List.chain'_nil
  | [a] => List.chain'_singleton a
  | _ :: b :: l => List.chain'_cons.mpr ⟨trivial, chain'_true (b :: l)⟩

theorem npinterpP_getLast_of_ge (x : ℚ) :
    ∀ (l : List (ℚ × ℚ)) (hne : l ≠ []),
      List.Chain' (fun a b : ℚ × ℚ => a.1 < b.1) l →
      (l.getLast hne).1 ≤ x →
      npinterpP x l = (l.getLast hne).2
  | [], hne, _, _ => absurd rfl hne
  | [p], _, _, _ => by rw [npinterpP]; simp
  | p :: q :: l, _, hc, hx => by
    have hpq := (List.chain'_cons.mp hc).1
    have htl := (List.chain'_cons.mp hc).2
    have hq_le : q.1 ≤ ((q :: l).getLast (by simp)).1 :=
      chain'_le_of_mem (fun r => r.1) q l (htl.imp (fun a b h => le_of_lt h)) _
        (List.getLast_mem (by simp))
    have hx' : ((q :: l).getLast (by simp)).1 ≤ x := by
      rw [List.getLast_cons (by simp)] at hx
      exact hx
    by_cases h1 : x ≤ p.1
    · exfalso
      linarith
    · by_cases h2 : x ≤ q.1
      · cases l with
        | nil =>
          have hxq : x = q.1 := le_antisymm h2 (by simpa using hx')
          have hne0 : q.1 - p.1 ≠ 0 := by
            have := hpq
            intro hz
            simp only at this
            linarith [sub_eq_zero.mp hz]
          rw [npinterpP, if_neg h1, if_pos h2, hxq, mul_div_assoc, div_self hne0, mul_one]
          simp [List.getLast]
        | cons r t =>
          exfalso
          have hqr := (List.chain'_cons.mp htl).1
          have hr_le : r.1 ≤ ((r :: t).getLast (by simp)).1 :=
            chain'_le_of_mem (fun s => s.1) r t
              ((List.chain'_cons.mp htl).2.imp (fun a b h => le_of_lt h)) _
              (List.getLast_mem (by simp))
          have hlast_eq : ((q :: r :: t).getLast (by simp)).1 = ((r :: t).getLast (by simp)).1 := by
            rw [List.getLast_cons (by simp)]
          rw [hlast_eq] at hx'
          linarith
      · have hlast_eq : ((p :: q :: l).getLast (by simp)) = ((q :: l).getLast (by simp)) :=
          List.getLast_cons (by simp)
        rw [npinterpP, if_neg h1, if_neg h2, hlast_eq]
        exact npinterpP_getLast_of_ge x (q :: l) (by simp) htl hx'

theorem npinterpP_lt_getLast (x : ℚ) :
    ∀ (l : List (ℚ × ℚ)) (hne : l ≠ []),
      List.Chain' (fun a b : ℚ × ℚ => a.1 < b.1 ∧ a.2 < b.2) l →
      2 ≤ l.length →
      x < (l.getLast hne).1 →
      npinterpP x l < (l.getLast hne).2
  | [], hne, _, _, _ => absurd rfl hne
  | [p], _, _, h2, _ => by simp at h2
  | p :: q :: l, _, hc, _, hx => by
    have hpq := (List.chain'_cons.mp hc).1
    have htl := (List.chain'_cons.mp hc).2
    have hlast_eq : ((p :: q :: l).getLast (by simp)) = ((q :: l).getLast (by simp)) :=
      List.getLast_cons (by simp)
    rw [hlast_eq] at hx ⊢
    by_cases h1 : x ≤ p.1
    · rw [npinterpP_head_of_le x p (q :: l) h1]
      have := chain'_lt_getLast (fun r => r.2) p q l (hc.imp (fun a b h => h.2))
      rw [List.getLast_cons (by simp)] at this
      exact this
    · by_cases h2 : x ≤ q.1
      · have hx0 : p.1 < x := lt_of_not_le h1
        have hden : 0 < q.1 - p.1 := by linarith [hpq.1]
        cases l with
        | nil =>
          have hxq : x < q.1 := by simpa using hx
          rw [npinterpP, if_neg h1, if_pos h2]
          have ht1 : (x - p.1) / (q.1 - p.1) < 1 := by
            rw [div_lt_one hden]; linarith
          have ht0 : 0 ≤ (x - p.1) / (q.1 - p.1) := div_nonneg (by linarith) (le_of_lt hden)
          rw [mul_div_assoc]
          have hlq : ((q :: ([] : List (ℚ × ℚ))).getLast (by simp)).2 = q.2 := by
            simp [List.getLast]
          rw [hlq]
          nlinarith [mul_pos (by linarith [hpq.2] : (0:ℚ) < q.2 - p.2)
            (by linarith : (0:ℚ) < 1 - (x - p.1) / (q.1 - p.1))]
        | cons r t =>
          have hle : npinterpP x (p :: q :: r :: t) ≤ q.2 := by
            rw [npinterpP, if_neg h1, if_pos h2]
            have ht1 : (x - p.1) / (q.1 - p.1) ≤ 1 := by
              rw [div_le_one hden]; linarith
            have ht0 : 0 ≤ (x - p.1) / (q.1 - p.1) := div_nonneg (by linarith) (le_of_lt hden)
            rw [mul_div_assoc]
            nlinarith [mul_nonneg (by linarith [hpq.2] : (0:ℚ) ≤ q.2 - p.2)
              (by linarith : (0:ℚ) ≤ 1 - (x - p.1) / (q.1 - p.1))]
          have hlt : q.2 < ((q :: r :: t).getLast (by simp)).2 :=
            chain'_lt_getLast (fun s => s.2) q r t (htl.imp (fun a b h => h.2))
          linarith
      · cases l with
        | nil =>
          exfalso
          have : x < q.1 := by simpa using hx
          exact h2 (le_of_lt this)
        | cons r t =>
          rw [npinterpP, if_neg h1, if_neg h2]
          exact npinterpP_lt_getLast x (q :: r :: t) (by simp) htl (by simp) hx

end MSIM

namespace MSIM

theorem zip_getLast {l m : List ℚ} (hlen : m.length = l.length) (h1 : 1 ≤ l.length)
    (hne : l.zip m ≠ []) :
    (l.zip m).getLast hne = (l.getD (l.length - 1) 0, m.getD (m.length - 1) 0) := by
  have hzl : (l.zip m).length = l.length := by
    rw [List.length_zip, hlen, min_self]
  rw [List.getLast_eq_getElem]
  simp only [hzl]
  rw [List.getElem_zip, List.getD_eq_getElem l 0 (by omega), List.getD_eq_getElem m 0 (by omega)]
  simp [hlen]

theorem idxList_getD_last (n : ℕ) (h : 1 ≤ n) :
    (idxList n).getD (n - 1) 0 = (n : ℚ) - 1 := by
  unfold idxList
  have hlt : n - 1 < ((List.range n).map (fun j : ℕ => (j : ℚ))).length := by
    simp; omega
  rw [List.getD_eq_getElem _ _ hlt, List.getElem_map, List.getElem_range, Nat.cast_sub h]
  norm_num

theorem in0_plus_one_le (xout xin : List ℚ)
    (hxin : List.Chain' (fun a b : ℚ => a < b) xin) (h2i : 2 ≤ xin.length)
    (hx : xout.getD 0 0 < xin.getD (xin.length - 1) 0) :
    in0 xout xin + 1 ≤ (xin.length : ℤ) - 1 := by
  unfold in0 npinterp
  have hlast : (xin.zip (idxList xin.length)).getLast (zipIdx_ne_nil (by omega))
      = (xin.getD (xin.length - 1) 0, (xin.length : ℚ) - 1) := by
    rw [zip_getLast (by simp [idxList]) (by omega)]
    rw [show (idxList xin.length).length - 1 = xin.length - 1 by simp [idxList]]
    rw [idxList_getD_last xin.length (by omega)]
  have hzl2 : 2 ≤ (xin.zip (idxList xin.length)).length := by
    rw [List.length_zip]
    simp [idxList]
    omega
  have hlt := npinterpP_lt_getLast (xout.getD 0 0) (xin.zip (idxList xin.length))
    (zipIdx_ne_nil (by omega))
    (chain'_zip xin (idxList xin.length) hxin (idxList_chain_lt xin.length))
    hzl2 (by rw [hlast]; exact hx)
  rw [hlast] at hlt
  have hlt' : npinterpP (xout.getD 0 0) (xin.zip (idxList xin.length)) < (xin.length : ℚ) - 1 := by
    simpa using hlt
  have h0 : 0 ≤ npinterpP (xout.getD 0 0) (xin.zip (idxList xin.length)) :=
    npinterpP_nonneg _ _ (fun p hp => (snd_mem_zipIdx_bounds hp).1)
  have hfl : pyint (npinterpP (xout.getD 0 0) (xin.zip (idxList xin.length)))
      < (xin.length : ℤ) - 1 := by
    rw [pyint_of_nonneg h0, Int.floor_lt]
    push_cast
    linarith
  omega

theorem npinterp_left_clamp :
    ∀ (xin yin : List ℚ), 1 ≤ xin.length →
      ∀ x, x ≤ xin.getD 0 0 → npinterp x xin yin = yin.getD 0 0
  | [], _, h, _, _ => by simp at h
  | a :: xin', [], _, x, hx => by
    simp [npinterp, npinterpP]
  | a :: xin', b :: yin', _, x, hx => by
    unfold npinterp
    rw [List.zip_cons_cons, npinterpP_head_of_le x (a, b) _ (by simpa using hx)]
    simp

theorem npinterp_right_clamp (xin yin : List ℚ)
    (hxin : List.Chain' (fun a b : ℚ => a < b) xin)
    (h1 : 1 ≤ xin.length) (hlen : yin.length = xin.length) (x : ℚ)
    (hx : xin.getD (xin.length - 1) 0 ≤ x) :
    npinterp x xin yin = yin.getD (yin.length - 1) 0 := by
  unfold npinterp
  have hne : xin.zip yin ≠ [] := by
    have hzl : (xin.zip yin).length = xin.length := by
      rw [List.length_zip, hlen, min_self]
    intro hnil
    rw [hnil] at hzl
    simp at hzl
    omega
  have hlast : (xin.zip yin).getLast hne
      = (xin.getD (xin.length - 1) 0, yin.getD (yin.length - 1) 0) :=
    zip_getLast hlen h1 hne
  rw [npinterpP_getLast_of_ge x (xin.zip yin) hne
    (chain'_zip xin yin hxin (chain'_true yin) |>.imp (fun a b h => h.1))
    (by rw [hlast]; exact hx), hlast]

end MSIM

namespace MSIM

/-- Claim C5 (amended): provided `outputGrid[0] < inputGrid[-1]` — otherwise
the spacing lookup `xin[in0+1]` indexes past the input grid and the call
fails (see the counterexample) — `rebin1d` selects its regime by comparing
the first output spacing `xout[1]-xout[0]` against the input spacing
`xin[in0+1]-xin[in0]` at the index bracketing `xout[0]`: if the output
spacing is strictly smaller the result is the linear interpolation of the
input series at each output coordinate, with out-of-range points clamped
to the nearest edge value; otherwise the box-integration formula is
applied to every output bin. -/
theorem rebin1d_regime_selection (xout xin yin : List ℚ)
    (hxout : List.Chain' (fun a b : ℚ => a < b) xout)
    (hxin : List.Chain' (fun a b : ℚ => a < b) xin)
    (h2o : 2 ≤ xout.length) (h2i : 2 ≤ xin.length)
    (hlen : yin.length = xin.length)
    (hx0 : xout.getD 0 0 < xin.getD (xin.length - 1) 0) :
    rebin1dE xout xin yin = Except.ok (rebin1d xout xin yin) ∧
    (dxOut xout < dxIn xout xin →
      rebin1d xout xin yin = xout.map (fun x => npinterp x xin yin)) ∧
    (¬ dxOut xout < dxIn xout xin →
      rebin1d xout xin yin = (List.range xout.length).map (boxVal xout xin yin)) ∧
    (∀ x, x ≤ xin.getD 0 0 → npinterp x xin yin = yin.getD 0 0) ∧
    (∀ x, xin.getD (xin.length - 1) 0 ≤ x →
      npinterp x xin yin = yin.getD (yin.length - 1) 0) := by
  have hin0 := in0_plus_one_le xout xin hxin h2i hx0
  refine ⟨?_, ?_, ?_, ?_, ?_⟩
  · unfold rebin1dE
    rw [if_neg (by omega), if_neg (by omega), if_neg (not_lt.mpr hin0), if_neg (by omega)]
  · intro hd; rw [rebin1d, if_pos hd]
  · intro hd; rw [rebin1d, if_neg hd]
  · exact fun x hx => npinterp_left_clamp xin yin (by omega) x hx
  · exact fun x hx => npinterp_right_clamp xin yin hxin (by omega) hlen x hx

/-- Claim C5 witness: the amended regime-selection theorem at the spec's
scenario 2 (finer output grid, interpolation regime), plus the left edge
clamp at the out-of-range coordinate `-5`. -/
theorem rebin1d_regime_selection_witness :
    rebin1dE [0, 1/2, 1, 3/2] [0, 1, 2, 3] [0, 10, 20, 30]
      = Except.ok (rebin1d [0, 1/2, 1, 3/2] [0, 1, 2, 3] [0, 10, 20, 30]) ∧
    npinterp (-5) [0, 1, 2, 3] [0, 10, 20, 30] = ([0, 10, 20, 30] : List ℚ).getD 0 0 := by
  have h := rebin1d_regime_selection [0, 1/2, 1, 3/2] [0, 1, 2, 3] [0, 10, 20, 30]
    (by norm_num [List.chain'_cons, List.chain'_singleton])
    (by norm_num [List.chain'_cons, List.chain'_singleton])
    (by norm_num) (by norm_num) (by norm_num) (by norm_num)
  exact ⟨h.1, h.2.2.2.1 (-5) (by norm_num)⟩

end MSIM

namespace MSIM

theorem pyint_natCast (m : ℕ) : pyint ((m : ℕ) : ℚ) = (m : ℤ) := by
  unfold pyint
  rw [if_neg (not_lt.2 (Nat.cast_nonneg m))]
  exact_mod_cast Int.floor_natCast m

theorem pget_natCast (B : Plane) (m j : ℕ) : pget B ((m : ℕ) : ℤ) j = B.data m j := by
  unfold pget
  rw [if_pos (by positivity)]
  simp

theorem planeSliceSum_pair (B : Plane) (m j : ℕ) :
    planeSliceSum B ((m : ℕ) : ℤ) (((m : ℕ) : ℤ) + 1) j = B.data m j + B.data (m + 1) j := by
  unfold planeSliceSum
  rw [show (((m : ℕ) : ℤ) + 1 + 1 - ((m : ℕ) : ℤ)).toNat = 2 by omega,
    Finset.sum_range_succ, Finset.sum_range_one]
  norm_num
  rw [pget_natCast, show ((m : ℕ) : ℤ) + 1 = (((m + 1 : ℕ)) : ℤ) by push_cast; ring,
    pget_natCast]

theorem passBin_one (B : Plane) (i j : ℕ) (hi : i < B.r) :
    (passBin B B.r 1).data i j = B.data i j := by
  have hpy1 : pyint ((i : ℚ) * 1) = ((i : ℕ) : ℤ) := by
    rw [mul_one, pyint_natCast]
  have hpy2 : pyint ((i : ℚ) * 1 + 1) = ((i : ℕ) : ℤ) + 1 := by
    rw [mul_one, show ((i : ℚ) + 1) = (((i + 1 : ℕ)) : ℚ) by push_cast; ring, pyint_natCast]
    push_cast
    ring
  dsimp only [passBin]
  rw [hpy1, hpy2]
  by_cases hlast : (B.r : ℤ) - 1 < ((i : ℕ) : ℤ) + 1
  · rw [if_pos hlast]
    have hieq : (B.r : ℤ) - 1 = ((i : ℕ) : ℤ) := by omega
    rw [hieq, if_pos rfl, pget_natCast]
    push_cast
    ring
  · rw [if_neg hlast, if_neg (by omega : ¬ ((i : ℕ) : ℤ) = ((i : ℕ) : ℤ) + 1)]
    rw [planeSliceSum_pair, pget_natCast,
      show ((i : ℕ) : ℤ) + 1 = (((i + 1 : ℕ)) : ℤ) by push_cast; ring, pget_natCast]
    push_cast
    ring

/-- Claim C8 (amended): `frebin2d` reads its shape argument as
`(x-size, y-size)`, so the no-op resize is `frebin2d(array, (cols, rows))`
— that call returns the array unchanged; the literal
`frebin2d(array, array.shape)` of the claim swaps the two axes and is not
a no-op for non-square arrays (see the counterexample); for square arrays
the two calls coincide. -/
theorem frebin2d_colsrows_identity (A : Plane) (hr : 0 < A.r) (hc : 0 < A.c) :
    planeEqOn (frebin2d A (A.c, A.r)) A := by
  have hx : ((A.c : ℕ) : ℚ) / ((A.c : ℕ) : ℚ) = 1 :=
    div_self (Nat.cast_ne_zero.mpr (by omega))
  have hy : ((A.r : ℕ) : ℚ) / ((A.r : ℕ) : ℚ) = 1 :=
    div_self (Nat.cast_ne_zero.mpr (by omega))
  refine ⟨rfl, rfl, ?_⟩
  intro i hi j hj
  have hfre : (frebin2d A (A.c, A.r)).data i j
      = (passBin (transposeP (passBin A A.r (((A.r : ℕ) : ℚ) / ((A.r : ℕ) : ℚ)))) A.c
          (((A.c : ℕ) : ℚ) / ((A.c : ℕ) : ℚ))).data j i
        / ((((A.c : ℕ) : ℚ) / ((A.c : ℕ) : ℚ)) * (((A.r : ℕ) : ℚ) / ((A.r : ℕ) : ℚ))) := rfl
  rw [hfre, hx, hy, mul_one, div_one]
  have hT : (passBin (transposeP (passBin A A.r 1)) A.c 1).data j i
      = (transposeP (passBin A A.r 1)).data j i :=
    passBin_one (transposeP (passBin A A.r 1)) j i
      (show j < (transposeP (passBin A A.r 1)).r from hj)
  rw [hT]
  show (passBin A A.r 1).data i j = A.data i j
  exact passBin_one A i j hi

/-- Claim C8 witness: the no-op resize at a concrete 2×3 array, with the
shape passed as `(cols, rows) = (3, 2)`. -/
theorem frebin2d_colsrows_identity_witness :
    planeEqOn (frebin2d ⟨2, 3, fun i j => 3 * (i : ℚ) + (j : ℚ)⟩ (3, 2))
      ⟨2, 3, fun i j => 3 * (i : ℚ) + (j : ℚ)⟩ :=
  frebin2d_colsrows_identity ⟨2, 3, fun i j => 3 * (i : ℚ) + (j : ℚ)⟩
    (by norm_num) (by norm_num)

end MSIM
